import Mathlib

/-!
Verification development for the `wta_elo` rating engine.

The Python source (`src/model.py`, `src/pipeline.py`, `src/data_cleaning.py`,
`src/data_ingestion/data_cleaning.py`) is shallowly embedded below.  Machine
floats are modelled as real numbers, numpy arrays indexed by player id as
functions `ℕ → ℝ` (rows) and `ℕ → ℕ → ℝ` (matrices), and a pandas dataframe of
matches as a `List MatchRow` in row order.

Numpy fancy-index assignment `arr[idx] = rhs` / `arr[idx] op= rhs` is buffered:
the right-hand side is evaluated in full against the original array and the
resulting values are then written position by position, so when `idx` contains
a duplicate index the last write wins and earlier writes to the same index are
discarded.  `fancyWrite` / `fancyUpdate` model exactly that.
-/

/-- Sequential write of an explicit list of `(index, value)` pairs into an
array; a later pair overwrites an earlier pair with the same index
(numpy fancy-index assignment after its right-hand side has been buffered). -/
def fancyWrite {α : Type} (arr : ℕ → α) : List (ℕ × α) → (ℕ → α)
  | [] => arr
  | e :: rest => fancyWrite (Function.update arr e.1 e.2) rest

/-- Numpy `arr[idx] op= val` / `arr[idx] = f(arr[idx], val)` over the rows of a
match list: the written values `f (arr (key m)) (val m)` are all computed from
the original buffered `arr`, then written sequentially (last write wins). -/
def fancyUpdate {α β M : Type} (f : α → β → α) (arr : ℕ → α) (ms : List M)
    (key : M → ℕ) (val : M → β) : ℕ → α :=
  fancyWrite arr (ms.map (fun m => (key m, f (arr (key m)) (val m))))

/-! ## Data model (`src/model.py`, `src/pipeline.py`)

`nS` is the number of surface categories (3 in the pipeline: Clay, Grass,
Hard); ability rows have `nS + 1` columns, the last being the base column. -/

/-- ELO model parameters (`parameters.yml` / `src/constants.py::PARAMS`). -/
structure Params where
  K : ℝ
  offset : ℝ
  shape : ℝ
  surfaceWeight : ℝ
  itfDeduction : ℝ
  p : ℝ
  straightSetsBoost : ℝ
  trendRate : ℝ
  trendWeight : ℝ
  allTimeWeight : ℝ

/-- One row of the match dataframe consumed by `elo_single_round`:
winner/loser ids, games and sets won, the one-hot surface row (columns
`0..nS-1`) and the itf-circuit indicator (`data[itf_col] == 'I'`). -/
structure MatchRow where
  date : ℕ
  wId : ℕ
  lId : ℕ
  wGames : ℕ
  lGames : ℕ
  wSets : ℕ
  lSets : ℕ
  oneHotSurface : ℕ → ℝ
  itf : Bool

/-- The four mutable state arrays owned by the rating engine
(`player_abs`, `games_played`, `player_trend`, `at_abilities`). -/
structure EloState where
  playerAbs : ℕ → ℕ → ℝ
  gamesPlayed : ℕ → ℕ → ℝ
  playerTrend : ℕ → ℝ
  atAbilities : ℕ → ℕ → ℝ

/-! ## `src/model.py` leaf functions -/

noncomputable section

/-- `get_surface_weights` (model.py:8-27), weight row of one match:
`s_weights = one_hot_surface*surface_weight` on the surface columns and
`1 - s_weights.sum()` appended as the base column `nS`. -/
def get_surface_weights (nS : ℕ) (oneHotSurface : ℕ → ℝ) (surfaceWeight : ℝ) : ℕ → ℝ :=
  fun j =>
    if j < nS then oneHotSurface j * surfaceWeight
    else if j = nS then 1 - ∑ i ∈ Finset.range nS, oneHotSurface i * surfaceWeight
    else 0

/-- Second return value of `get_surface_weights`: `(s_weight > 0).astype(int)`. -/
def playing_surface_of (nS : ℕ) (oneHotSurface : ℕ → ℝ) (surfaceWeight : ℝ) : ℕ → ℝ :=
  fun j => if 0 < get_surface_weights nS oneHotSurface surfaceWeight j then 1 else 0

/-- `get_current_ability` (model.py:30-52): blend of current and all-time
ability rows under the surface weights, amplified by the trend. -/
def get_current_ability (nS : ℕ) (cAbility atAbility sWeights : ℕ → ℝ)
    (atWeight cTrend trendWeight : ℝ) : ℝ :=
  let cAb := (∑ j ∈ Finset.range (nS + 1), cAbility j * sWeights j) * (1 - atWeight) +
    (∑ j ∈ Finset.range (nS + 1), atAbility j * sWeights j) * atWeight
  cAb + cAb * cTrend * trendWeight

/-- `get_probs` (model.py:55-65): probability of `player_a` beating `player_b`. -/
def get_probs (playerA playerB : ℝ) : ℝ :=
  1 - 1 / (1 + (10 : ℝ) ^ ((playerA - playerB) / 400))

/-- `scipy.stats.binom.cdf(k, n, p)` for a natural number of trials. -/
def binomCdf (k n : ℕ) (p : ℝ) : ℝ :=
  ∑ i ∈ Finset.range (k + 1), (n.choose i : ℝ) * p ^ i * (1 - p) ^ (n - i)

/-- `get_performance_score` (model.py:81-100): returns the winner and loser
performance relative to the prior probability, `(w - probs, l - (1 - probs))`
with `w = binom.cdf(g_won, g_won + g_lost, p) + ((s_won - s_lost) == 2)*s_boost`
and `l = 1 - w`. -/
def get_performance_score (probs : ℝ) (gWon gLost sWon sLost : ℕ) (p sBoost : ℝ) :
    ℝ × ℝ :=
  let wPerformance := binomCdf gWon (gWon + gLost) p +
    (if (sWon : ℤ) - (sLost : ℤ) = 2 then sBoost else 0)
  let lPerformance := 1 - wPerformance
  (wPerformance - probs, lPerformance - (1 - probs))

/-- `get_k_factor` (model.py:103-117):
`K / (games_played + offset)**shape * (1 - ift_indicator*itf_deduction)`. -/
def get_k_factor (gamesPlayed K offset shape : ℝ) (iftIndicator : Bool)
    (itfDeduction : ℝ) : ℝ :=
  K / (gamesPlayed + offset) ^ shape * (1 - (if iftIndicator then 1 else 0) * itfDeduction)

/-- `get_ability_change` (model.py:120-134), one column:
`k_factor*p_score*playing_surface`. -/
def get_ability_change (kFactor pScore playingSurface : ℝ) : ℝ :=
  kFactor * pScore * playingSurface

/-- `get_updated_trend` (model.py:137-148):
`c_trend*(1 - update_rate) + performance*update_rate`. -/
def get_updated_trend (cTrend performance updateRate : ℝ) : ℝ :=
  cTrend * (1 - updateRate) + performance * updateRate

/-! ## Per-match quantities of `elo_single_round` (model.py:186-231)

All of these read only the state passed to the round, mirroring the source
where every computation happens on the full batch before any array write. -/

/-- Surface-weight row of one match (model.py:188-189). -/
def sWeightsOf (nS : ℕ) (P : Params) (m : MatchRow) : ℕ → ℝ :=
  get_surface_weights nS m.oneHotSurface P.surfaceWeight

/-- Playing-surface indicator row of one match (model.py:188-189). -/
def playingSurfaceOf (nS : ℕ) (P : Params) (m : MatchRow) : ℕ → ℝ :=
  playing_surface_of nS m.oneHotSurface P.surfaceWeight

/-- Winner blended pre-match ability (model.py:192-198). -/
def wAbilityOf (nS : ℕ) (P : Params) (st : EloState) (m : MatchRow) : ℝ :=
  get_current_ability nS (st.playerAbs m.wId) (st.atAbilities m.wId)
    (sWeightsOf nS P m) P.allTimeWeight (st.playerTrend m.wId) P.trendWeight

/-- Loser blended pre-match ability (model.py:200-206). -/
def lAbilityOf (nS : ℕ) (P : Params) (st : EloState) (m : MatchRow) : ℝ :=
  get_current_ability nS (st.playerAbs m.lId) (st.atAbilities m.lId)
    (sWeightsOf nS P m) P.allTimeWeight (st.playerTrend m.lId) P.trendWeight

/-- Predicted probability of the winner winning (model.py:208). -/
def probsOf (nS : ℕ) (P : Params) (st : EloState) (m : MatchRow) : ℝ :=
  get_probs (wAbilityOf nS P st m) (lAbilityOf nS P st m)

/-- Winner relative performance score (model.py:210-213). -/
def wPerformanceOf (nS : ℕ) (P : Params) (st : EloState) (m : MatchRow) : ℝ :=
  (get_performance_score (probsOf nS P st m) m.wGames m.lGames m.wSets m.lSets
    P.p P.straightSetsBoost).1

/-- Loser relative performance score (model.py:210-213). -/
def lPerformanceOf (nS : ℕ) (P : Params) (st : EloState) (m : MatchRow) : ℝ :=
  (get_performance_score (probsOf nS P st m) m.wGames m.lGames m.wSets m.lSets
    P.p P.straightSetsBoost).2

/-- Winner K-factor row (model.py:217-223). -/
def wKFactorOf (nS : ℕ) (P : Params) (st : EloState) (m : MatchRow) : ℕ → ℝ :=
  fun j => get_k_factor (st.gamesPlayed m.wId j) P.K P.offset P.shape m.itf P.itfDeduction

/-- Loser K-factor row (model.py:225-231). -/
def lKFactorOf (nS : ℕ) (P : Params) (st : EloState) (m : MatchRow) : ℕ → ℝ :=
  fun j => get_k_factor (st.gamesPlayed m.lId j) P.K P.offset P.shape m.itf P.itfDeduction

/-- Winner staged ability delta row (model.py:233-234). -/
def wDeltaOf (nS : ℕ) (P : Params) (st : EloState) (m : MatchRow) : ℕ → ℝ :=
  fun j => get_ability_change (wKFactorOf nS P st m j) (wPerformanceOf nS P st m)
    (playingSurfaceOf nS P m j)

/-- Loser staged ability delta row (model.py:235-236). -/
def lDeltaOf (nS : ℕ) (P : Params) (st : EloState) (m : MatchRow) : ℕ → ℝ :=
  fun j => get_ability_change (lKFactorOf nS P st m j) (lPerformanceOf nS P st m)
    (playingSurfaceOf nS P m j)

/-- `player_abs` after the two fancy `+=` of model.py:233-236: first the
winner deltas, then the loser deltas on top (both delta vectors were computed
against the pre-batch state). -/
def absAfter (nS : ℕ) (P : Params) (st : EloState) (batch : List MatchRow) : ℕ → ℕ → ℝ :=
  fancyUpdate (fun row d => fun j => row j + d j)
    (fancyUpdate (fun row d => fun j => row j + d j) st.playerAbs batch
      MatchRow.wId (wDeltaOf nS P st))
    batch MatchRow.lId (lDeltaOf nS P st)

/-- `at_abilities` after the two `np.maximum` assignments of model.py:239-240,
which read `player_abs` after both delta passes. -/
def atAfter (nS : ℕ) (P : Params) (st : EloState) (batch : List MatchRow) : ℕ → ℕ → ℝ :=
  fancyUpdate (fun row cur => fun j => max (cur j) (row j))
    (fancyUpdate (fun row cur => fun j => max (cur j) (row j)) st.atAbilities batch
      MatchRow.wId (fun m => absAfter nS P st batch m.wId))
    batch MatchRow.lId (fun m => absAfter nS P st batch m.lId)

/-- `player_trend` after the two `get_updated_trend` assignments of
model.py:242-245. -/
def trendAfter (nS : ℕ) (P : Params) (st : EloState) (batch : List MatchRow) : ℕ → ℝ :=
  fancyUpdate (fun t perf => get_updated_trend t perf P.trendRate)
    (fancyUpdate (fun t perf => get_updated_trend t perf P.trendRate)
      st.playerTrend batch MatchRow.wId (wPerformanceOf nS P st))
    batch MatchRow.lId (lPerformanceOf nS P st)

/-- `games_played` after the two fancy `+=` of model.py:247-248. -/
def gamesAfter (nS : ℕ) (P : Params) (st : EloState) (batch : List MatchRow) : ℕ → ℕ → ℝ :=
  fancyUpdate (fun row ps => fun j => row j + ps j)
    (fancyUpdate (fun row ps => fun j => row j + ps j) st.gamesPlayed batch
      MatchRow.wId (playingSurfaceOf nS P))
    batch MatchRow.lId (playingSurfaceOf nS P)

/-- `elo_single_round` (model.py:151-250): one date batch.  The four array
mutations of the source, in source order, each as a buffered fancy-index
assignment; the returned probabilities are the per-row predictions. -/
def elo_single_round (nS : ℕ) (P : Params) (batch : List MatchRow) (st : EloState) :
    EloState × List ℝ :=
  (⟨absAfter nS P st batch, gamesAfter nS P st batch,
    trendAfter nS P st batch, atAfter nS P st batch⟩,
   batch.map (probsOf nS P st))

end

/-! ## `elo` (model.py:253-311)

`data.groupby(date_col)` partitions the dataframe rows by date and iterates
the groups in ascending key order, each group keeping its original row order.
-/

/-- The distinct dates of a row list in ascending order (the group keys of
`data.groupby(date_col)`). -/
def sortedDates (dates : List ℕ) : List ℕ :=
  List.insertionSort (· ≤ ·) dates.dedup

/-- The date groups of `data.groupby(date_col)`, in ascending key order, each
group in original row order. -/
def dateGroups (data : List MatchRow) : List (List MatchRow) :=
  (sortedDates (data.map MatchRow.date)).map (fun d => data.filter (fun m => m.date == d))

noncomputable section

/-- The fold of `elo_single_round` over the date groups (the loop body of
model.py:301-309); probabilities are concatenated in group order. -/
def eloGroups (nS : ℕ) (P : Params) : EloState → List (List MatchRow) → EloState × List ℝ
  | st, [] => (st, [])
  | st, g :: gs =>
    let r := elo_single_round nS P g st
    let rest := eloGroups nS P r.1 gs
    (rest.1, r.2 ++ rest.2)

/-- `elo` (model.py:253-311) on a date-sorted row list: the state is deep-copied
on entry (a no-op in this pure model) and threaded through the date groups.
For a date-sorted input with index `0..len-1` the groups are consecutive
slices, so `overall_probs[date_df.index] = p` lays the group probabilities out
in input order and the returned vector is their concatenation. -/
def elo (nS : ℕ) (P : Params) (data : List MatchRow) (st : EloState) : EloState × List ℝ :=
  eloGroups nS P st (dateGroups data)

end

/-! ## The probability write-back of `elo` (model.py:299-309)

`overall_probs = np.empty((len(data),))` followed by
`overall_probs[date_df.index] = p` per group: each input row causes exactly one
write, at the position given by that row's dataframe index.  Rows are carried
here as `(index, row)` pairs; the write positions do not depend on the
probability values. -/

/-- Date groups of an indexed row list (same `groupby` as `dateGroups`). -/
def dateGroupsIdx (data : List (ℕ × MatchRow)) : List (List (ℕ × MatchRow)) :=
  (sortedDates (data.map (fun r => r.2.date))).map
    (fun d => data.filter (fun r => r.2.date == d))

/-- The sequence of positions written into `overall_probs`, group by group
(`overall_probs[date_df.index] = p` at model.py:309). -/
def eloWriteTargets (data : List (ℕ × MatchRow)) : List ℕ :=
  ((dateGroupsIdx data).map (fun g => g.map Prod.fst)).flatten

/-- The probability write-back is well defined: every write lands inside the
length-`len(data)` output vector, and every position of the output vector is
written exactly once (so no `np.empty` garbage survives and no written value
is overwritten). -/
def probsWriteOk (data : List (ℕ × MatchRow)) : Prop :=
  (∀ t ∈ eloWriteTargets data, t < data.length) ∧
  (∀ j < data.length, (eloWriteTargets data).count j = 1)

/-! ## `surface_to_one_hot` (src/data_ingestion/data_cleaning.py:78-92)

Raw surface labels are modelled as natural numbers (an injective coding of the
label strings), a missing (`NaN`) label as `none`, and the surface map
(`SURFACE_MAP`) as an association list with distinct keys.  `pd.get_dummies`
over a `Categorical` turns a mapped label into a 0/1 row over the sorted
distinct category values, and an unmapped (`NaN`) entry into an all-zero row.
-/

/-- `surfaces.value_counts().index[0]`: the most frequent non-null label
(first-seen order breaking ties); `none` when every label is null. -/
def mostCommon (surfaces : List (Option ℕ)) : Option ℕ :=
  let obs := surfaces.filterMap id
  obs.dedup.foldl (fun acc v =>
    match acc with
    | none => some v
    | some b => if obs.count b < obs.count v then some v else acc) none

/-- `np.unique(list(surface_map.values()))`: sorted distinct category values. -/
def surfaceCategories (smap : List (ℕ × ℕ)) : List ℕ :=
  List.insertionSort (· ≤ ·) (smap.map Prod.snd).dedup

/-- One output row of `pd.get_dummies(pd.Categorical(surfaces, categories))`:
1 in the column of the row's category, 0 elsewhere, all-zero for `NaN`. -/
def oneHotRowOf (cats : List ℕ) (oc : Option ℕ) : List ℕ :=
  cats.map (fun c => if oc = some c then 1 else 0)

/-- `surface_to_one_hot` (data_ingestion/data_cleaning.py:78-92): null labels
are replaced with the most common label, then every label is mapped through
`surface_map` (labels outside the map produce `NaN`) and one-hot encoded over
the sorted distinct map values. -/
def surface_to_one_hot (surfaces : List (Option ℕ)) (smap : List (ℕ × ℕ)) :
    List ℕ × List (List ℕ) :=
  let imputed := surfaces.map (fun s =>
    match s with
    | some v => some v
    | none => mostCommon surfaces)
  let mapped := imputed.map (fun s =>
    s.bind (fun v => (smap.find? (fun e => e.1 == v)).map Prod.snd))
  let cats := surfaceCategories smap
  (cats, mapped.map (oneHotRowOf cats))

/-! ## Concrete instances for witnesses and counterexamples -/

noncomputable section

/-- A concrete parameter set (fields: K, offset, shape, surface_weight,
itf_deduction, p, straight_sets_boost, trend_rate, trend_weight,
all_time_weight). -/
def P0 : Params := ⟨250, 5, 4 / 10, 1 / 2, 2 / 10, 53 / 100, 0, 1 / 2, 1 / 10, 1 / 2⟩

/-- The pipeline's initial state: all abilities 1500, counters and trend 0. -/
def st0 : EloState := ⟨fun _ _ => 1500, fun _ _ => 0, fun _ => 0, fun _ _ => 1500⟩

/-- A state whose player 0 is stronger on surface 0 than elsewhere. -/
def stX : EloState :=
  ⟨fun q j => if q = 0 ∧ j = 0 then 1600 else 1500, fun _ _ => 0, fun _ => 0,
   fun q j => if q = 0 ∧ j = 0 then 1600 else 1500⟩

/-- One-hot row for surface 0. -/
def surfaceRow0 : ℕ → ℝ := fun j => if j = 0 then 1 else 0

/-- One-hot row for surface 1. -/
def surfaceRow1 : ℕ → ℝ := fun j => if j = 1 then 1 else 0

/-- Match: player 0 beats player 1 on surface 0, date 0, 0-0 games, 2-0 sets,
top tier. -/
def mA : MatchRow := ⟨0, 0, 1, 0, 0, 2, 0, surfaceRow0, false⟩

/-- Same as the first concrete match but on date 1. -/
def mB : MatchRow := ⟨1, 0, 1, 0, 0, 2, 0, surfaceRow0, false⟩

/-- Same winner and loser and date as the first concrete match but played on
surface 1. -/
def mC : MatchRow := ⟨0, 0, 1, 0, 0, 2, 0, surfaceRow1, false⟩

end

/-- The batch-commit contract under per-role duplicate-free id vectors: each
player's ability row receives their winner delta and their loser delta
additively, `games_played` receives the playing-surface indicator row once
per contested match, and untouched players are unchanged. -/
def C1Post (nS : ℕ) (P : Params) (batch : List MatchRow) (st : EloState) : Prop :=
  (∀ m ∈ batch, m.wId ∉ batch.map MatchRow.lId → ∀ j,
    (elo_single_round nS P batch st).1.playerAbs m.wId j =
      st.playerAbs m.wId j + wDeltaOf nS P st m j ∧
    (elo_single_round nS P batch st).1.gamesPlayed m.wId j =
      st.gamesPlayed m.wId j + playingSurfaceOf nS P m j) ∧
  (∀ m ∈ batch, m.lId ∉ batch.map MatchRow.wId → ∀ j,
    (elo_single_round nS P batch st).1.playerAbs m.lId j =
      st.playerAbs m.lId j + lDeltaOf nS P st m j ∧
    (elo_single_round nS P batch st).1.gamesPlayed m.lId j =
      st.gamesPlayed m.lId j + playingSurfaceOf nS P m j) ∧
  (∀ m1 m2, m1 ∈ batch → m2 ∈ batch → m1.wId = m2.lId → ∀ j,
    (elo_single_round nS P batch st).1.playerAbs m1.wId j =
      st.playerAbs m1.wId j + wDeltaOf nS P st m1 j + lDeltaOf nS P st m2 j ∧
    (elo_single_round nS P batch st).1.gamesPlayed m1.wId j =
      st.gamesPlayed m1.wId j + playingSurfaceOf nS P m1 j + playingSurfaceOf nS P m2 j) ∧
  (∀ q, q ∉ batch.map MatchRow.wId → q ∉ batch.map MatchRow.lId →
    (elo_single_round nS P batch st).1.playerAbs q = st.playerAbs q ∧
    (elo_single_round nS P batch st).1.gamesPlayed q = st.gamesPlayed q)

theorem fancyWrite_of_not_mem {α : Type} {arr : ℕ → α} {ps : List (ℕ × α)} {q : ℕ}
    (h : q ∉ ps.map Prod.fst) : fancyWrite arr ps q = arr q := by
  induction ps generalizing arr with
  | nil => rfl
  | cons e rest ih =>
    simp only [List.map_cons, List.mem_cons, not_or] at h
    rw [fancyWrite, ih h.2, Function.update_noteq h.1]

theorem fancyWrite_of_const {α : Type} {arr : ℕ → α} {ps : List (ℕ × α)} {q : ℕ} {w : α}
    (hmem : q ∈ ps.map Prod.fst) (hval : ∀ e ∈ ps, e.1 = q → e.2 = w) :
    fancyWrite arr ps q = w := by
  induction ps generalizing arr with
  | nil => simp at hmem
  | cons e rest ih =>
    by_cases hq : q ∈ rest.map Prod.fst
    · exact ih hq (fun x hx => hval x (List.mem_cons_of_mem _ hx))
    · simp only [List.map_cons, List.mem_cons] at hmem
      have he : e.1 = q := (hmem.resolve_right hq).symm
      rw [fancyWrite, fancyWrite_of_not_mem hq, he,
        Function.update_same, hval e (List.mem_cons_self _ _) he]

theorem fancyUpdate_of_not_mem {α β M : Type} {f : α → β → α} {arr : ℕ → α}
    {ms : List M} {key : M → ℕ} {val : M → β} {q : ℕ} (h : q ∉ ms.map key) :
    fancyUpdate f arr ms key val q = arr q := by
  apply fancyWrite_of_not_mem
  simpa [List.map_map, Function.comp] using h

/-- If every row whose key is `q` would write the same value `w`, then after the
fancy assignment position `q` holds `w` (covers duplicate keys). -/
theorem fancyUpdate_of_const {α β M : Type} {f : α → β → α} {arr : ℕ → α}
    {ms : List M} {key : M → ℕ} {val : M → β} {q : ℕ} {w : α}
    (hmem : q ∈ ms.map key) (hval : ∀ m ∈ ms, key m = q → f (arr q) (val m) = w) :
    fancyUpdate f arr ms key val q = w := by
  apply fancyWrite_of_const
  · simpa [List.map_map, Function.comp] using hmem
  · intro e he hq
    simp only [List.mem_map] at he
    obtain ⟨m, hm, rfl⟩ := he
    have hq2 : key m = q := hq
    show f (arr (key m)) (val m) = w
    rw [hq2]
    exact hval m hm hq2

/-- With no duplicate keys, the row `m` itself determines the final value at
its key. -/
theorem fancyUpdate_of_nodup {α β M : Type} {f : α → β → α} {arr : ℕ → α}
    {ms : List M} {key : M → ℕ} {val : M → β}
    (hnd : (ms.map key).Nodup) {m : M} (hm : m ∈ ms) :
    fancyUpdate f arr ms key val (key m) = f (arr (key m)) (val m) := by
  apply fancyUpdate_of_const
  · exact List.mem_map_of_mem key hm
  · intro x hx hkx
    have hxm : x = m := List.inj_on_of_nodup_map hnd hx hm hkx
    rw [hxm]

/-! ## Claims -/

/-- C5: the win-probability function computes
`prob(a, b) = 1 - 1/(1 + 10^((a-b)/400))`, and for all (finite real) abilities
`a`, `b` it satisfies `prob(a, b) + prob(b, a) = 1`, `prob(a, a) = 0.5`, and
`0 < prob(a, b) < 1`. -/
theorem claim_C5 (a b : ℝ) :
    get_probs a b = 1 - 1 / (1 + (10 : ℝ) ^ ((a - b) / 400)) ∧
    get_probs a b + get_probs b a = 1 ∧
    get_probs a a = 1 / 2 ∧
    0 < get_probs a b ∧ get_probs a b < 1 := by
  have h10 : (0 : ℝ) < 10 := by norm_num
  have ht : 0 < (10 : ℝ) ^ ((a - b) / 400) := Real.rpow_pos_of_pos h10 _
  set t := (10 : ℝ) ^ ((a - b) / 400) with htdef
  have h1t : (1 : ℝ) + t ≠ 0 := by positivity
  refine ⟨rfl, ?_, ?_, ?_, ?_⟩
  · have hneg : (b - a) / 400 = -((a - b) / 400) := by ring
    rw [get_probs, get_probs, hneg, Real.rpow_neg (le_of_lt h10), ← htdef]
    have htne : t ≠ 0 := ne_of_gt ht
    field_simp
    ring
  · rw [get_probs, sub_self, zero_div, Real.rpow_zero]
    norm_num
  · rw [get_probs, ← htdef]
    have : 1 / (1 + t) < 1 := by
      rw [div_lt_one (by positivity)]
      linarith
    linarith
  · rw [get_probs, ← htdef]
    have : 0 < 1 / (1 + t) := by positivity
    linarith

/-- C6: for a one-hot surface row (exactly one active surface `j0 < nS`),
the weight row returned by `get_surface_weights` has value `surface_weight`
at the active surface, `1 - surface_weight` at the appended base column `nS`,
and sums to 1 over its `nS + 1` columns.  (Batched rows are processed
row-independently: `elo_single_round` applies this function through
`sWeightsOf` one row at a time.) -/
theorem claim_C6 (nS : ℕ) (w : ℝ) (oneHot : ℕ → ℝ) (j0 : ℕ)
    (hj0 : j0 < nS) (hone : oneHot j0 = 1) (hzero : ∀ j < nS, j ≠ j0 → oneHot j = 0) :
    get_surface_weights nS oneHot w j0 = w ∧
    get_surface_weights nS oneHot w nS = 1 - w ∧
    ∑ j ∈ Finset.range (nS + 1), get_surface_weights nS oneHot w j = 1 := by
  have hsum : ∑ i ∈ Finset.range nS, oneHot i * w = w := by
    rw [Finset.sum_eq_single j0]
    · rw [hone, one_mul]
    · intro i hi hne
      rw [hzero i (Finset.mem_range.mp hi) hne, zero_mul]
    · intro h
      exact absurd (Finset.mem_range.mpr hj0) h
  refine ⟨?_, ?_, ?_⟩
  · rw [get_surface_weights]
    simp only [hj0, if_true, hone, one_mul]
  · rw [get_surface_weights]
    simp only [lt_irrefl, if_false, if_true, hsum]
  · rw [Finset.sum_range_succ]
    have hmain : ∑ j ∈ Finset.range nS, get_surface_weights nS oneHot w j =
        ∑ i ∈ Finset.range nS, oneHot i * w := by
      apply Finset.sum_congr rfl
      intro i hi
      rw [get_surface_weights]
      simp only [Finset.mem_range.mp hi, if_true]
    rw [hmain, hsum, get_surface_weights]
    simp only [lt_irrefl, if_false, if_true, hsum]
    ring

/-- C6 witness: `surface_weight = 0.12` and one-hot row `[1, 0, 0]` give the
weight row `[0.12, 0, 0, 0.88]` of §8 of the spec. -/
theorem claim_C6_witness :
    get_surface_weights 3 (fun j => if j = 0 then 1 else 0) (12 / 100) 0 = 12 / 100 ∧
    get_surface_weights 3 (fun j => if j = 0 then 1 else 0) (12 / 100) 3 = 1 - 12 / 100 ∧
    ∑ j ∈ Finset.range 4, get_surface_weights 3 (fun j => if j = 0 then 1 else 0) (12 / 100) j = 1 :=
  claim_C6 3 (12 / 100) (fun j => if j = 0 then 1 else 0) 0 (by norm_num)
    (by norm_num) (by intro j hj hne; simp [hne])

/-- C7: with `K > 0`, `offset > 0`, `shape > 0` and `0 < itf_deduction < 1`
fixed, the K-factor `K / (games_played + offset)^shape * (1 - itf_deduction
if lower-tier else 1)` is strictly decreasing in `games_played` over
non-negative `games_played`, and at equal `games_played` the lower-tier
K-factor is strictly below the top-tier one. -/
theorem claim_C7 (K offset shape ded g1 g2 : ℝ) (itf : Bool)
    (hK : 0 < K) (hoff : 0 < offset) (hshape : 0 < shape)
    (hded0 : 0 < ded) (hded1 : ded < 1) (hg1 : 0 ≤ g1) (hlt : g1 < g2) :
    get_k_factor g2 K offset shape itf ded < get_k_factor g1 K offset shape itf ded ∧
    get_k_factor g1 K offset shape true ded < get_k_factor g1 K offset shape false ded := by
  have hb1 : 0 < (g1 + offset) ^ shape := Real.rpow_pos_of_pos (by linarith) _
  have hb2 : 0 < (g2 + offset) ^ shape := Real.rpow_pos_of_pos (by linarith) _
  have hblt : (g1 + offset) ^ shape < (g2 + offset) ^ shape :=
    Real.rpow_lt_rpow (by linarith) (by linarith) hshape
  have hdiv : K / (g2 + offset) ^ shape < K / (g1 + offset) ^ shape :=
    div_lt_div_of_pos_left hK hb1 hblt
  have hdivpos : 0 < K / (g1 + offset) ^ shape := div_pos hK hb1
  constructor
  · rw [get_k_factor, get_k_factor]
    have hfac : 0 < 1 - (if itf then (1 : ℝ) else 0) * ded := by
      cases itf <;> simp <;> linarith
    exact mul_lt_mul_of_pos_right hdiv hfac
  · rw [get_k_factor, get_k_factor]
    simp only [if_true, if_false, one_mul, zero_mul, sub_zero, mul_one]
    have : K / (g1 + offset) ^ shape * (1 - ded) < K / (g1 + offset) ^ shape * 1 :=
      mul_lt_mul_of_pos_left (by linarith) hdivpos
    simpa using this

/-- C7 witness: the spec's §8 instance `K = 250`, `offset = 5`, `shape = 0.4`,
`itf_deduction = 0.2`, comparing `games_played` 1 and 10. -/
theorem claim_C7_witness :
    get_k_factor 10 250 5 (4 / 10) true (2 / 10) < get_k_factor 1 250 5 (4 / 10) true (2 / 10) ∧
    get_k_factor 1 250 5 (4 / 10) true (2 / 10) < get_k_factor 1 250 5 (4 / 10) false (2 / 10) :=
  claim_C7 250 5 (4 / 10) (2 / 10) 1 10 true (by norm_num) (by norm_num)
    (by norm_num) (by norm_num) (by norm_num) (by norm_num) (by norm_num)

/-! ## Splitting `elo` at a date boundary (claim C4) -/

theorem mem_sortedDates {l : List ℕ} {d : ℕ} : d ∈ sortedDates l ↔ d ∈ l := by
  rw [sortedDates, (List.perm_insertionSort (· ≤ ·) l.dedup).mem_iff, List.mem_dedup]

theorem sortedDates_append {A B : List ℕ} (h : ∀ a ∈ A, ∀ b ∈ B, a < b) :
    sortedDates (A ++ B) = sortedDates A ++ sortedDates B := by
  have hdisj : A.dedup.Disjoint B.dedup := by
    intro a haA haB
    exact lt_irrefl a (h a (List.mem_dedup.mp haA) a (List.mem_dedup.mp haB))
  have hperm : List.Perm (sortedDates (A ++ B)) (sortedDates A ++ sortedDates B) := by
    refine ((List.perm_insertionSort _ _).trans ?_).trans
      (((List.perm_insertionSort (· ≤ ·) A.dedup).append
        (List.perm_insertionSort (· ≤ ·) B.dedup)).symm)
    refine (List.perm_ext_iff_of_nodup (A ++ B).nodup_dedup
      (A.nodup_dedup.append B.nodup_dedup hdisj)).mpr ?_
    intro a
    simp [List.mem_dedup, List.mem_append]
  refine List.eq_of_perm_of_sorted hperm (List.sorted_insertionSort _ _) ?_
  refine List.pairwise_append.mpr
    ⟨List.sorted_insertionSort _ _, List.sorted_insertionSort _ _, ?_⟩
  intro a ha b hb
  exact le_of_lt (h a (mem_sortedDates.mp ha) b (mem_sortedDates.mp hb))

theorem dateGroups_append {xs ys : List MatchRow}
    (h : ∀ x ∈ xs, ∀ y ∈ ys, x.date < y.date) :
    dateGroups (xs ++ ys) = dateGroups xs ++ dateGroups ys := by
  have hdates : ∀ a ∈ xs.map MatchRow.date, ∀ b ∈ ys.map MatchRow.date, a < b := by
    intro a ha b hb
    obtain ⟨x, hx, rfl⟩ := List.mem_map.mp ha
    obtain ⟨y, hy, rfl⟩ := List.mem_map.mp hb
    exact h x hx y hy
  rw [dateGroups, List.map_append, sortedDates_append hdates, List.map_append]
  have hxs : ∀ d ∈ sortedDates (xs.map MatchRow.date),
      (xs ++ ys).filter (fun m => m.date == d) = xs.filter (fun m => m.date == d) := by
    intro d hd
    obtain ⟨x, hx, rfl⟩ := List.mem_map.mp (mem_sortedDates.mp hd)
    have hnil : List.filter (fun m => m.date == x.date) ys = [] := by
      apply List.filter_eq_nil_iff.mpr
      intro y hy
      simp only [beq_iff_eq]
      exact ne_of_gt (h x hx y hy)
    rw [List.filter_append, hnil, List.append_nil]
  have hys : ∀ d ∈ sortedDates (ys.map MatchRow.date),
      (xs ++ ys).filter (fun m => m.date == d) = ys.filter (fun m => m.date == d) := by
    intro d hd
    obtain ⟨y, hy, rfl⟩ := List.mem_map.mp (mem_sortedDates.mp hd)
    have hnil : List.filter (fun m => m.date == y.date) xs = [] := by
      apply List.filter_eq_nil_iff.mpr
      intro x hx
      simp only [beq_iff_eq]
      exact ne_of_lt (h x hx y hy)
    rw [List.filter_append, hnil, List.nil_append]
  rw [dateGroups, dateGroups, List.map_congr_left hxs, List.map_congr_left hys]

theorem eloGroups_append (nS : ℕ) (P : Params) (st : EloState)
    (gs1 gs2 : List (List MatchRow)) :
    eloGroups nS P st (gs1 ++ gs2) =
      ((eloGroups nS P (eloGroups nS P st gs1).1 gs2).1,
       (eloGroups nS P st gs1).2 ++ (eloGroups nS P (eloGroups nS P st gs1).1 gs2).2) := by
  induction gs1 generalizing st with
  | nil => simp [eloGroups]
  | cons g gs ih => simp [eloGroups, ih, List.append_assoc]

/-- C4: for a date-sorted match list and a split index `k` on a date boundary
(every date in `matches[0:k]` is strictly below every date in `matches[k:]`),
running `elo` on the two slices with the intermediate state threaded through
yields the same final state and the same per-match probabilities (the
concatenation of the two slices' probability vectors) as one run over the
whole list. -/
theorem claim_C4 (nS : ℕ) (P : Params) (data : List MatchRow) (st : EloState) (k : ℕ)
    (hsorted : (data.map MatchRow.date).Sorted (· ≤ ·))
    (hsplit : ∀ x ∈ data.take k, ∀ y ∈ data.drop k, x.date < y.date) :
    elo nS P data st =
      ((elo nS P (data.drop k) (elo nS P (data.take k) st).1).1,
       (elo nS P (data.take k) st).2 ++
         (elo nS P (data.drop k) (elo nS P (data.take k) st).1).2) := by
  conv_lhs => rw [elo, ← List.take_append_drop k data]
  rw [dateGroups_append hsplit, eloGroups_append]
  rfl

/-! ## The commit phase of one batch (claims C9, C1, C2) -/

theorem absAfter_untouched (nS : ℕ) (P : Params) (st : EloState) (batch : List MatchRow)
    (p : ℕ) (hw : p ∉ batch.map MatchRow.wId) (hl : p ∉ batch.map MatchRow.lId) :
    absAfter nS P st batch p = st.playerAbs p := by
  unfold absAfter
  rw [fancyUpdate_of_not_mem hl, fancyUpdate_of_not_mem hw]

theorem atAfter_of_mem_l (nS : ℕ) (P : Params) (st : EloState) (batch : List MatchRow)
    (p : ℕ) (hpl : p ∈ batch.map MatchRow.lId) :
    atAfter nS P st batch p = fun j => max (absAfter nS P st batch p j)
      (fancyUpdate (fun row cur => fun j => max (cur j) (row j)) st.atAbilities batch
        MatchRow.wId (fun m => absAfter nS P st batch m.wId) p j) := by
  unfold atAfter
  apply fancyUpdate_of_const hpl
  intro m hm hkey
  rw [hkey]

theorem atAfter_of_mem_w (nS : ℕ) (P : Params) (st : EloState) (batch : List MatchRow)
    (p : ℕ) (hpw : p ∈ batch.map MatchRow.wId) (hpl : p ∉ batch.map MatchRow.lId) :
    atAfter nS P st batch p = fun j => max (absAfter nS P st batch p j)
      (st.atAbilities p j) := by
  unfold atAfter
  rw [fancyUpdate_of_not_mem hpl]
  apply fancyUpdate_of_const hpw
  intro m hm hkey
  rw [hkey]

theorem atAfter_untouched (nS : ℕ) (P : Params) (st : EloState) (batch : List MatchRow)
    (p : ℕ) (hw : p ∉ batch.map MatchRow.wId) (hl : p ∉ batch.map MatchRow.lId) :
    atAfter nS P st batch p = st.atAbilities p := by
  unfold atAfter
  rw [fancyUpdate_of_not_mem hl, fancyUpdate_of_not_mem hw]

/-- C9: if `alltime_best >= current_ability` holds before a batch, it holds
again for every player and column after the batch commit (the elementwise
maximum at model.py:239-240 is taken against `player_abs` after both delta
passes), and the `alltime_best` rows of players untouched by the batch are
unchanged. -/
theorem claim_C9 (nS : ℕ) (P : Params) (batch : List MatchRow) (st : EloState)
    (hinv : ∀ p j, st.playerAbs p j ≤ st.atAbilities p j) :
    (∀ p j, (elo_single_round nS P batch st).1.playerAbs p j ≤
      (elo_single_round nS P batch st).1.atAbilities p j) ∧
    (∀ p, p ∉ batch.map MatchRow.wId → p ∉ batch.map MatchRow.lId →
      (elo_single_round nS P batch st).1.atAbilities p = st.atAbilities p) := by
  have habs : (elo_single_round nS P batch st).1.playerAbs = absAfter nS P st batch := rfl
  have hat : (elo_single_round nS P batch st).1.atAbilities = atAfter nS P st batch := rfl
  rw [habs, hat]
  constructor
  · intro p j
    by_cases hpl : p ∈ batch.map MatchRow.lId
    · rw [atAfter_of_mem_l nS P st batch p hpl]
      exact le_max_left _ _
    · by_cases hpw : p ∈ batch.map MatchRow.wId
      · rw [atAfter_of_mem_w nS P st batch p hpw hpl]
        exact le_max_left _ _
      · rw [atAfter_untouched nS P st batch p hpw hpl,
          absAfter_untouched nS P st batch p hpw hpl]
        exact hinv p j
  · intro p hw hl
    exact atAfter_untouched nS P st batch p hw hl

theorem gamesAfter_untouched (nS : ℕ) (P : Params) (st : EloState) (batch : List MatchRow)
    (q : ℕ) (hw : q ∉ batch.map MatchRow.wId) (hl : q ∉ batch.map MatchRow.lId) :
    gamesAfter nS P st batch q = st.gamesPlayed q := by
  unfold gamesAfter
  rw [fancyUpdate_of_not_mem hl, fancyUpdate_of_not_mem hw]

/-- C1 (amended): when no player id repeats inside the winner-id vector and
none repeats inside the loser-id vector, the batch commit applies each
player's staged deltas additively (winner delta plus, if they also lost a
batch match, that loser delta) and increments `games_played` by the
playing-surface indicator row once per contested match; untouched players are
unchanged.  (The unamended claim fails for duplicated ids within one role
vector: numpy buffered fancy assignment keeps only the last occurrence.) -/
theorem claim_C1_amended (nS : ℕ) (P : Params) (batch : List MatchRow) (st : EloState)
    (hW : (batch.map MatchRow.wId).Nodup) (hL : (batch.map MatchRow.lId).Nodup) :
    C1Post nS P batch st := by
  have habs : (elo_single_round nS P batch st).1.playerAbs = absAfter nS P st batch := rfl
  have hg : (elo_single_round nS P batch st).1.gamesPlayed = gamesAfter nS P st batch := rfl
  refine ⟨?_, ?_, ?_, ?_⟩
  · intro m hm hnl j
    constructor
    · rw [habs]
      unfold absAfter
      rw [fancyUpdate_of_not_mem hnl, congrFun (fancyUpdate_of_nodup hW hm) j]
    · rw [hg]
      unfold gamesAfter
      rw [fancyUpdate_of_not_mem hnl, congrFun (fancyUpdate_of_nodup hW hm) j]
  · intro m hm hnw j
    constructor
    · rw [habs]
      unfold absAfter
      rw [congrFun (fancyUpdate_of_nodup hL hm) j, fancyUpdate_of_not_mem hnw]
    · rw [hg]
      unfold gamesAfter
      rw [congrFun (fancyUpdate_of_nodup hL hm) j, fancyUpdate_of_not_mem hnw]
  · intro m1 m2 hm1 hm2 hkey j
    constructor
    · rw [habs]
      unfold absAfter
      rw [hkey, congrFun (fancyUpdate_of_nodup hL hm2) j, ← hkey,
        congrFun (fancyUpdate_of_nodup hW hm1) j]
    · rw [hg]
      unfold gamesAfter
      rw [hkey, congrFun (fancyUpdate_of_nodup hL hm2) j, ← hkey,
        congrFun (fancyUpdate_of_nodup hW hm1) j]
  · intro q hw hl
    exact ⟨habs ▸ absAfter_untouched nS P st batch q hw hl,
      hg ▸ gamesAfter_untouched nS P st batch q hw hl⟩

/-- C1 witness: a singleton batch has duplicate-free role vectors, and the
amended commit contract holds for it. -/
theorem claim_C1_witness :
    (([mA] : List MatchRow).map MatchRow.wId).Nodup ∧
    (([mA] : List MatchRow).map MatchRow.lId).Nodup ∧
    C1Post 3 P0 [mA] st0 :=
  ⟨by decide, by decide, claim_C1_amended 3 P0 [mA] st0 (by decide) (by decide)⟩

/-- C1 counterexample: in a date batch with two matches both won by player 0
on the same surface, the base-column `games_played` counter of player 0 rises
by 1, not by 2 as the claim requires — the duplicated winner id makes the
buffered `games_played[w_id] += playing_surface` keep only the last write. -/
theorem claim_C1_counterexample :
    (elo_single_round 3 P0 [mA, mA] st0).1.gamesPlayed 0 3 = 1 ∧
    (elo_single_round 3 P0 [mA, mA] st0).1.gamesPlayed 0 3 ≠
      st0.gamesPlayed 0 3 + 2 := by
  have hps : playingSurfaceOf 3 P0 mA 3 = 1 := by
    unfold playingSurfaceOf playing_surface_of get_surface_weights
    norm_num [mA, surfaceRow0, P0, Finset.sum_range_succ]
  have hl0 : (0 : ℕ) ∉ ([mA, mA] : List MatchRow).map MatchRow.lId := by decide
  have hw0 : (0 : ℕ) ∈ ([mA, mA] : List MatchRow).map MatchRow.wId := by decide
  have h1 : (elo_single_round 3 P0 [mA, mA] st0).1.gamesPlayed 0 =
      fun j => st0.gamesPlayed 0 j + playingSurfaceOf 3 P0 mA j := by
    show gamesAfter 3 P0 st0 [mA, mA] 0 = _
    unfold gamesAfter
    rw [fancyUpdate_of_not_mem hl0]
    apply fancyUpdate_of_const hw0
    intro m hm hk
    have hmA : m = mA := by
      simp only [List.mem_cons, List.not_mem_nil, or_false] at hm
      tauto
    rw [hmA]
  constructor
  · rw [congrFun h1 3, hps]
    norm_num [st0]
  · rw [congrFun h1 3, hps]
    norm_num [st0]

/-- C2 (amended): for a batch whose winner-id vector and loser-id vector are
each duplicate-free, the trend committed for a winner (who does not also
appear as a loser) is `trend*(1 - trend_rate) + performance*trend_rate` with
`performance` the RELATIVE performance score returned by
`get_performance_score` (raw binomial-CDF score minus the prior win
probability), and symmetrically for losers. -/
theorem claim_C2_amended (nS : ℕ) (P : Params) (batch : List MatchRow) (st : EloState)
    (hW : (batch.map MatchRow.wId).Nodup) (hL : (batch.map MatchRow.lId).Nodup) :
    (∀ m ∈ batch, m.wId ∉ batch.map MatchRow.lId →
      (elo_single_round nS P batch st).1.playerTrend m.wId =
        st.playerTrend m.wId * (1 - P.trendRate) +
          wPerformanceOf nS P st m * P.trendRate) ∧
    (∀ m ∈ batch, m.lId ∉ batch.map MatchRow.wId →
      (elo_single_round nS P batch st).1.playerTrend m.lId =
        st.playerTrend m.lId * (1 - P.trendRate) +
          lPerformanceOf nS P st m * P.trendRate) := by
  have htr : (elo_single_round nS P batch st).1.playerTrend = trendAfter nS P st batch := rfl
  constructor
  · intro m hm hnl
    rw [htr]
    unfold trendAfter
    rw [fancyUpdate_of_not_mem hnl, fancyUpdate_of_nodup hW hm]
    rfl
  · intro m hm hnw
    rw [htr]
    unfold trendAfter
    rw [fancyUpdate_of_nodup hL hm, fancyUpdate_of_not_mem hnw]
    rfl

/-- C2 witness: the amended trend contract at a concrete singleton batch. -/
theorem claim_C2_witness :
    (([mA] : List MatchRow).map MatchRow.wId).Nodup ∧
    (([mA] : List MatchRow).map MatchRow.lId).Nodup ∧
    ((∀ m ∈ ([mA] : List MatchRow), m.wId ∉ ([mA] : List MatchRow).map MatchRow.lId →
      (elo_single_round 3 P0 [mA] st0).1.playerTrend m.wId =
        st0.playerTrend m.wId * (1 - P0.trendRate) +
          wPerformanceOf 3 P0 st0 m * P0.trendRate) ∧
    (∀ m ∈ ([mA] : List MatchRow), m.lId ∉ ([mA] : List MatchRow).map MatchRow.wId →
      (elo_single_round 3 P0 [mA] st0).1.playerTrend m.lId =
        st0.playerTrend m.lId * (1 - P0.trendRate) +
          lPerformanceOf 3 P0 st0 m * P0.trendRate)) :=
  ⟨by decide, by decide, claim_C2_amended 3 P0 [mA] st0 (by decide) (by decide)⟩

/-- C2 counterexample: at a concrete match the committed trend is 1/4 while
the claimed raw-performance EWMA value is 1/2 — the engine feeds the EWMA the
relative performance (raw score minus prior probability), not the raw
binomial-CDF score. -/
theorem claim_C2_counterexample :
    (elo_single_round 3 P0 [mA] st0).1.playerTrend mA.wId ≠
      st0.playerTrend mA.wId * (1 - P0.trendRate) +
        (binomCdf mA.wGames (mA.wGames + mA.lGames) P0.p +
          (if (mA.wSets : ℤ) - (mA.lSets : ℤ) = 2 then P0.straightSetsBoost else 0)) *
          P0.trendRate := by
  have hab : lAbilityOf 3 P0 st0 mA = wAbilityOf 3 P0 st0 mA := rfl
  have hprob : probsOf 3 P0 st0 mA = 1 / 2 := by
    unfold probsOf
    rw [hab]
    unfold get_probs
    rw [sub_self, zero_div, Real.rpow_zero]
    norm_num
  have hcdf : binomCdf mA.wGames (mA.wGames + mA.lGames) P0.p = 1 := by
    unfold binomCdf
    simp [mA]
  have hperf : wPerformanceOf 3 P0 st0 mA = 1 / 2 := by
    unfold wPerformanceOf get_performance_score
    simp only
    rw [hcdf, hprob]
    norm_num [mA, P0]
  have h1 : (elo_single_round 3 P0 [mA] st0).1.playerTrend mA.wId =
      get_updated_trend (st0.playerTrend mA.wId) (wPerformanceOf 3 P0 st0 mA) P0.trendRate := by
    show trendAfter 3 P0 st0 [mA] mA.wId = _
    unfold trendAfter
    rw [fancyUpdate_of_not_mem (by decide : mA.wId ∉ ([mA] : List MatchRow).map MatchRow.lId),
      fancyUpdate_of_nodup (by decide) (List.mem_singleton_self mA)]
  rw [h1, hperf, hcdf]
  unfold get_updated_trend
  norm_num [mA, P0, st0]

/-- C3 (amended): within one date batch every per-match computation reads only
the pre-batch state — the probability recorded for the i-th batch row equals
the probability of running that row alone from the same state, so no match's
computed quantities depend on another same-batch match's outcome; two batch
rows with the same winner read the same pre-batch `games_played` row and
trend, and the same blended pre-match ability whenever they also share the
surface row (the unamended claim also asserted equal blended abilities across
different surface rows, which is false). -/
theorem claim_C3_amended (nS : ℕ) (P : Params) (st : EloState) (batch : List MatchRow) :
    (∀ i (hi : i < batch.length),
      (elo_single_round nS P batch st).2[i]? =
        (elo_single_round nS P [batch.get ⟨i, hi⟩] st).2[0]?) ∧
    (∀ m1 ∈ batch, ∀ m2 ∈ batch, m1.wId = m2.wId →
      st.gamesPlayed m1.wId = st.gamesPlayed m2.wId ∧
      st.playerTrend m1.wId = st.playerTrend m2.wId ∧
      (m1.oneHotSurface = m2.oneHotSurface →
        wAbilityOf nS P st m1 = wAbilityOf nS P st m2)) := by
  constructor
  · intro i hi
    show (batch.map (probsOf nS P st))[i]? = ([batch.get ⟨i, hi⟩].map (probsOf nS P st))[0]?
    rw [List.getElem?_map, List.getElem?_map, List.getElem?_eq_getElem hi]
    simp [List.get_eq_getElem]
  · intro m1 hm1 m2 hm2 hid
    refine ⟨by rw [hid], by rw [hid], ?_⟩
    intro hsurf
    unfold wAbilityOf sWeightsOf
    rw [hid, hsurf]

/-- C3 witness: the amended within-batch contract at a concrete singleton
batch. -/
theorem claim_C3_witness :
    (∀ i (hi : i < ([mA] : List MatchRow).length),
      (elo_single_round 3 P0 [mA] st0).2[i]? =
        (elo_single_round 3 P0 [([mA] : List MatchRow).get ⟨i, hi⟩] st0).2[0]?) ∧
    (∀ m1 ∈ ([mA] : List MatchRow), ∀ m2 ∈ ([mA] : List MatchRow), m1.wId = m2.wId →
      st0.gamesPlayed m1.wId = st0.gamesPlayed m2.wId ∧
      st0.playerTrend m1.wId = st0.playerTrend m2.wId ∧
      (m1.oneHotSurface = m2.oneHotSurface →
        wAbilityOf 3 P0 st0 m1 = wAbilityOf 3 P0 st0 m2)) :=
  claim_C3_amended 3 P0 st0 [mA]

/-- C3 counterexample: two matches of the same date batch with the same winner
but different surfaces; the blended pre-match ability used for the winner is
1550 in one match and 1500 in the other, so the claim's "identical blended
ability in all of those matches" fails. -/
theorem claim_C3_counterexample :
    mA.date = mC.date ∧ mA.wId = mC.wId ∧
    wAbilityOf 3 P0 stX mA ≠ wAbilityOf 3 P0 stX mC := by
  refine ⟨rfl, rfl, ?_⟩
  have h1 : wAbilityOf 3 P0 stX mA = 1550 := by
    unfold wAbilityOf get_current_ability sWeightsOf get_surface_weights
    norm_num [mA, stX, surfaceRow0, P0, Finset.sum_range_succ]
  have h2 : wAbilityOf 3 P0 stX mC = 1500 := by
    unfold wAbilityOf get_current_ability sWeightsOf get_surface_weights
    norm_num [mC, stX, surfaceRow1, P0, Finset.sum_range_succ]
  rw [h1, h2]
  norm_num

/-- C9 witness: the invariant and untouched-row preservation at a concrete
batch, from the all-1500 initial state. -/
theorem claim_C9_witness :
    (∀ p j, st0.playerAbs p j ≤ st0.atAbilities p j) ∧
    ((∀ p j, (elo_single_round 3 P0 [mA] st0).1.playerAbs p j ≤
      (elo_single_round 3 P0 [mA] st0).1.atAbilities p j) ∧
     (∀ p, p ∉ ([mA] : List MatchRow).map MatchRow.wId →
      p ∉ ([mA] : List MatchRow).map MatchRow.lId →
      (elo_single_round 3 P0 [mA] st0).1.atAbilities p = st0.atAbilities p)) :=
  ⟨fun _ _ => le_refl _, claim_C9 3 P0 [mA] st0 (fun _ _ => le_refl _)⟩

/-- C4 witness: a two-match list on dates 0 and 1, split at the date boundary
k = 1. -/
theorem claim_C4_witness :
    ((([mA, mB] : List MatchRow).map MatchRow.date).Sorted (· ≤ ·) ∧
     (∀ x ∈ ([mA, mB] : List MatchRow).take 1, ∀ y ∈ ([mA, mB] : List MatchRow).drop 1,
        x.date < y.date)) ∧
    elo 3 P0 [mA, mB] st0 =
      ((elo 3 P0 (([mA, mB] : List MatchRow).drop 1)
          (elo 3 P0 (([mA, mB] : List MatchRow).take 1) st0).1).1,
       (elo 3 P0 (([mA, mB] : List MatchRow).take 1) st0).2 ++
         (elo 3 P0 (([mA, mB] : List MatchRow).drop 1)
           (elo 3 P0 (([mA, mB] : List MatchRow).take 1) st0).1).2) :=
  ⟨⟨by decide, by decide⟩, claim_C4 3 P0 [mA, mB] st0 1 (by decide) (by decide)⟩

/-! ## The probability write positions (claim C10) -/

theorem nodup_sortedDates (l : List ℕ) : (sortedDates l).Nodup :=
  ((List.perm_insertionSort (· ≤ ·) l.dedup).nodup_iff).mpr l.nodup_dedup

/-- Grouping a list by a key over a duplicate-free covering key list and
re-concatenating the groups permutes the original list. -/
theorem flatten_filter_perm {M : Type} (k : M → ℕ) :
    ∀ (data : List M) (ds : List ℕ), ds.Nodup → (∀ m ∈ data, k m ∈ ds) →
    List.Perm ((ds.map (fun d => data.filter (fun m => k m == d))).flatten) data := by
  intro data
  induction data with
  | nil =>
    intro ds _ _
    have h0 : (ds.map (fun d => ([] : List M).filter (fun m => k m == d))).flatten = [] := by
      simp
    rw [h0]
  | cons m rest ih =>
    intro ds hnd hcov
    obtain ⟨ds1, ds2, rfl⟩ := List.append_of_mem (hcov m (List.mem_cons_self m rest))
    have hnd1 := List.nodup_append.mp hnd
    have hkm2 : k m ∉ ds2 := (List.nodup_cons.mp hnd1.2.1).1
    have hkm1 : k m ∉ ds1 := fun h => hnd1.2.2 h (List.mem_cons_self _ _)
    have hmap1 : ds1.map (fun d => (m :: rest).filter (fun x => k x == d)) =
        ds1.map (fun d => rest.filter (fun x => k x == d)) := by
      apply List.map_congr_left
      intro d hd
      rw [List.filter_cons]
      have hne : (k m == d) = false := by
        simp only [beq_eq_false_iff_ne]
        exact fun hh => hkm1 (hh ▸ hd)
      rw [hne]
      simp
    have hmap2 : ds2.map (fun d => (m :: rest).filter (fun x => k x == d)) =
        ds2.map (fun d => rest.filter (fun x => k x == d)) := by
      apply List.map_congr_left
      intro d hd
      rw [List.filter_cons]
      have hne : (k m == d) = false := by
        simp only [beq_eq_false_iff_ne]
        exact fun hh => hkm2 (hh ▸ hd)
      rw [hne]
      simp
    have hmid : (m :: rest).filter (fun x => k x == k m) =
        m :: rest.filter (fun x => k x == k m) := by
      rw [List.filter_cons]
      simp
    have hsplit : (((ds1 ++ k m :: ds2).map
        (fun d => (m :: rest).filter (fun x => k x == d))).flatten) =
        (ds1.map (fun d => rest.filter (fun x => k x == d))).flatten ++
          (m :: (rest.filter (fun x => k x == k m) ++
            (ds2.map (fun d => rest.filter (fun x => k x == d))).flatten)) := by
      rw [List.map_append, List.flatten_append, List.map_cons, List.flatten_cons,
        hmap1, hmap2, hmid]
      simp
    rw [hsplit]
    refine List.Perm.trans List.perm_middle ?_
    apply List.Perm.cons
    have hIH := ih (ds1 ++ k m :: ds2) hnd
      (fun x hx => hcov x (List.mem_cons_of_mem _ hx))
    have hexp : (((ds1 ++ k m :: ds2).map
        (fun d => rest.filter (fun x => k x == d))).flatten) =
        (ds1.map (fun d => rest.filter (fun x => k x == d))).flatten ++
          (rest.filter (fun x => k x == k m) ++
            (ds2.map (fun d => rest.filter (fun x => k x == d))).flatten) := by
      rw [List.map_append, List.flatten_append, List.map_cons, List.flatten_cons]
    rw [hexp] at hIH
    exact hIH

/-- The write positions of `overall_probs[date_df.index] = p` over all groups
are a permutation of the input's index column: `groupby` partitions the rows. -/
theorem eloWriteTargets_perm (data : List (ℕ × MatchRow)) :
    List.Perm (eloWriteTargets data) (data.map Prod.fst) := by
  unfold eloWriteTargets dateGroupsIdx
  rw [← List.map_flatten]
  apply List.Perm.map
  exact flatten_filter_perm (fun r => r.2.date) data
    (sortedDates (data.map (fun r => r.2.date))) (nodup_sortedDates _)
    (fun m hm => mem_sortedDates.mpr (List.mem_map_of_mem _ hm))

/-- C10: the probability write-back is well defined (every write of
`overall_probs[date_df.index] = p` in bounds, every output position written
exactly once, none uninitialized) exactly when the input's index is the
integers `0..len(data)-1` (as a multiset); and an index value `>= len(data)`
makes some write go out of bounds. -/
theorem claim_C10 (data : List (ℕ × MatchRow)) :
    (probsWriteOk data ↔ List.Perm (data.map Prod.fst) (List.range data.length)) ∧
    (∀ i ∈ data.map Prod.fst, data.length ≤ i →
      ¬ (∀ t ∈ eloWriteTargets data, t < data.length)) := by
  have hperm := eloWriteTargets_perm data
  constructor
  · constructor
    · rintro ⟨hb, hc⟩
      apply List.perm_iff_count.mpr
      intro a
      rw [← hperm.count_eq]
      by_cases ha : a < data.length
      · rw [hc a ha]
        exact (List.count_eq_one_of_mem (List.nodup_range _) (List.mem_range.mpr ha)).symm
      · have h0 : (eloWriteTargets data).count a = 0 := by
          rw [List.count_eq_zero]
          intro hmem
          exact ha (hb a hmem)
        rw [h0, eq_comm, List.count_eq_zero]
        intro hmem
        exact ha (List.mem_range.mp hmem)
    · intro hP
      have htr : List.Perm (eloWriteTargets data) (List.range data.length) :=
        hperm.trans hP
      constructor
      · intro t ht
        exact List.mem_range.mp (htr.mem_iff.mp ht)
      · intro j hj
        rw [htr.count_eq]
        exact List.count_eq_one_of_mem (List.nodup_range _) (List.mem_range.mpr hj)
  · intro i hi hni hall
    exact absurd (hall i (hperm.mem_iff.mpr hi)) (not_lt.mpr hni)

/-- C10 witness: a two-row input with index column `[1, 0]` — a permutation of
`0..1`, so the write-back is well defined there. -/
theorem claim_C10_witness :
    (probsWriteOk [(1, mA), (0, mB)] ↔
      List.Perm (([(1, mA), (0, mB)] : List (ℕ × MatchRow)).map Prod.fst)
        (List.range ([(1, mA), (0, mB)] : List (ℕ × MatchRow)).length)) ∧
    (∀ i ∈ ([(1, mA), (0, mB)] : List (ℕ × MatchRow)).map Prod.fst,
      ([(1, mA), (0, mB)] : List (ℕ × MatchRow)).length ≤ i →
      ¬ (∀ t ∈ eloWriteTargets [(1, mA), (0, mB)],
          t < ([(1, mA), (0, mB)] : List (ℕ × MatchRow)).length)) :=
  claim_C10 [(1, mA), (0, mB)]

/-! ## One-hot rows of the surface encoder (claim C8) -/

theorem nodup_surfaceCategories (smap : List (ℕ × ℕ)) : (surfaceCategories smap).Nodup :=
  ((List.perm_insertionSort (· ≤ ·) (smap.map Prod.snd).dedup).nodup_iff).mpr
    (smap.map Prod.snd).nodup_dedup

theorem mem_surfaceCategories {smap : List (ℕ × ℕ)} {c : ℕ} :
    c ∈ surfaceCategories smap ↔ c ∈ smap.map Prod.snd := by
  rw [surfaceCategories,
    (List.perm_insertionSort (· ≤ ·) (smap.map Prod.snd).dedup).mem_iff, List.mem_dedup]

theorem count_one_oneHotRowOf_zero {cats : List ℕ} {oc : Option ℕ}
    (h : ∀ c ∈ cats, oc ≠ some c) : (oneHotRowOf cats oc).count 1 = 0 := by
  induction cats with
  | nil => rfl
  | cons a rest ih =>
    rw [oneHotRowOf, List.map_cons, List.count_cons]
    have ha : oc ≠ some a := h a (List.mem_cons_self _ _)
    rw [if_neg ha]
    have htail := ih (fun c hc => h c (List.mem_cons_of_mem _ hc))
    rw [oneHotRowOf] at htail
    rw [htail]
    norm_num

theorem count_one_oneHotRowOf {cats : List ℕ} (hnd : cats.Nodup) {c : ℕ} (hc : c ∈ cats) :
    (oneHotRowOf cats (some c)).count 1 = 1 := by
  induction cats with
  | nil => simp at hc
  | cons a rest ih =>
    rw [oneHotRowOf, List.map_cons, List.count_cons]
    by_cases hca : c = a
    · have hnotin : a ∉ rest := (List.nodup_cons.mp hnd).1
      have h0 : ∀ x ∈ rest, (some c : Option ℕ) ≠ some x := by
        intro x hx hcx
        rw [hca] at hcx
        injection hcx with h2
        exact hnotin (h2 ▸ hx)
      have hz := count_one_oneHotRowOf_zero h0
      rw [oneHotRowOf] at hz
      rw [hz]
      simp [hca]
    · have hcrest : c ∈ rest := (List.mem_cons.mp hc).resolve_left hca
      have htail := ih (List.nodup_cons.mp hnd).2 hcrest
      rw [oneHotRowOf] at htail
      rw [htail]
      simp [hca]

theorem surface_to_one_hot_rows (surfaces : List (Option ℕ)) (smap : List (ℕ × ℕ)) :
    (surface_to_one_hot surfaces smap).2 = surfaces.map (fun s =>
      oneHotRowOf (surfaceCategories smap)
        ((match s with
          | some v => some v
          | none => mostCommon surfaces).bind
          (fun v => (smap.find? (fun e : ℕ × ℕ => e.1 == v)).map Prod.snd))) := by
  unfold surface_to_one_hot
  simp only [List.map_map]
  rfl

/-- C8 (amended): the surface encoder returns the sorted distinct category
values as a stable header; every output row is 0/1-valued with the fixed
width of the category list; a present label that is a key of the surface map
is encoded one-hot (exactly one 1); a missing (null) label is imputed with the
most frequent observed label before mapping; but a present label outside the
map is NOT imputed — it stays unmapped and produces an all-zero row (the
unamended claim asserted every missing or unknown label is imputed and every
row is one-hot). -/
theorem claim_C8_amended (surfaces : List (Option ℕ)) (smap : List (ℕ × ℕ)) :
    ((surface_to_one_hot surfaces smap).1 = surfaceCategories smap) ∧
    (∀ row ∈ (surface_to_one_hot surfaces smap).2,
      row.length = (surfaceCategories smap).length ∧ ∀ x ∈ row, x = 1 ∨ x = 0) ∧
    (∀ (i v : ℕ), surfaces[i]? = some (some v) → v ∈ smap.map Prod.fst →
      ∃ row : List ℕ, (surface_to_one_hot surfaces smap).2[i]? = some row ∧ row.count 1 = 1) ∧
    (∀ i : ℕ, surfaces[i]? = some none →
      (surface_to_one_hot surfaces smap).2[i]? =
        some (oneHotRowOf (surfaceCategories smap)
          ((mostCommon surfaces).bind
            (fun v => (smap.find? (fun e : ℕ × ℕ => e.1 == v)).map Prod.snd)))) ∧
    (∀ (i v : ℕ), surfaces[i]? = some (some v) → smap.find? (fun e : ℕ × ℕ => e.1 == v) = none →
      (surface_to_one_hot surfaces smap).2[i]? =
        some (oneHotRowOf (surfaceCategories smap) none) ∧
        (oneHotRowOf (surfaceCategories smap) none).count 1 = 0) := by
  have hrows := surface_to_one_hot_rows surfaces smap
  refine ⟨rfl, ?_, ?_, ?_, ?_⟩
  · intro row hrow
    rw [hrows] at hrow
    obtain ⟨s, hs, rfl⟩ := List.mem_map.mp hrow
    constructor
    · rw [oneHotRowOf]
      exact List.length_map _ _
    · intro x hx
      rw [oneHotRowOf] at hx
      obtain ⟨c, hc, rfl⟩ := List.mem_map.mp hx
      by_cases hh : (match s with
          | some v => some v
          | none => mostCommon surfaces).bind
          (fun v => (smap.find? (fun e : ℕ × ℕ => e.1 == v)).map Prod.snd) = some c
      · rw [if_pos hh]
        left
        rfl
      · rw [if_neg hh]
        right
        rfl
  · intro i v hi hv
    have hsome : (smap.find? (fun x => x.1 == v)).isSome := by
      apply List.find?_isSome.mpr
      obtain ⟨e, he, hfst⟩ := List.mem_map.mp hv
      exact ⟨e, he, by simp [hfst]⟩
    obtain ⟨e, he⟩ := Option.isSome_iff_exists.mp hsome
    refine ⟨oneHotRowOf (surfaceCategories smap) (some e.2), ?_, ?_⟩
    · rw [hrows, List.getElem?_map, hi]
      simp [he]
    · apply count_one_oneHotRowOf (nodup_surfaceCategories smap)
      apply mem_surfaceCategories.mpr
      exact List.mem_map_of_mem Prod.snd (List.mem_of_find?_eq_some he)
  · intro i hi
    rw [hrows, List.getElem?_map, hi]
    rfl
  · intro i v hi hnone
    constructor
    · rw [hrows, List.getElem?_map, hi]
      simp [hnone]
    · exact count_one_oneHotRowOf_zero (fun c _ h => Option.noConfusion h)

/-- C8 counterexample: the raw label 5 is present (not null) but outside the
two-key surface map, so it is not imputed and its encoded row is `[0, 0]` —
an all-zero row with no 1 at all, contradicting "no input row is left
unmapped" and "exactly one 1". -/
theorem claim_C8_counterexample :
    (surface_to_one_hot [some 5] [(0, 0), (1, 1)]).2 = [[0, 0]] ∧
    ∀ row ∈ (surface_to_one_hot [some 5] [(0, 0), (1, 1)]).2, row.count 1 = 0 := by
  decide

/-- C8 witness: the amended encoder contract at a concrete input with one
known label and one null label over a two-category map. -/
theorem claim_C8_witness :
    (((surface_to_one_hot [some 0, none] [(0, 0), (1, 1)]).1 =
      surfaceCategories [(0, 0), (1, 1)]) ∧
    (∀ row ∈ (surface_to_one_hot [some 0, none] [(0, 0), (1, 1)]).2,
      row.length = (surfaceCategories [(0, 0), (1, 1)]).length ∧
        ∀ x ∈ row, x = 1 ∨ x = 0) ∧
    (∀ (i v : ℕ), ([some 0, none] : List (Option ℕ))[i]? = some (some v) →
      v ∈ ([(0, 0), (1, 1)] : List (ℕ × ℕ)).map Prod.fst →
      ∃ row : List ℕ, (surface_to_one_hot [some 0, none] [(0, 0), (1, 1)]).2[i]? = some row ∧
        row.count 1 = 1) ∧
    (∀ i : ℕ, ([some 0, none] : List (Option ℕ))[i]? = some none →
      (surface_to_one_hot [some 0, none] [(0, 0), (1, 1)]).2[i]? =
        some (oneHotRowOf (surfaceCategories [(0, 0), (1, 1)])
          ((mostCommon [some 0, none]).bind
            (fun v => (([(0, 0), (1, 1)] : List (ℕ × ℕ)).find?
              (fun e : ℕ × ℕ => e.1 == v)).map Prod.snd)))) ∧
    (∀ (i v : ℕ), ([some 0, none] : List (Option ℕ))[i]? = some (some v) →
      ([(0, 0), (1, 1)] : List (ℕ × ℕ)).find? (fun e : ℕ × ℕ => e.1 == v) = none →
      (surface_to_one_hot [some 0, none] [(0, 0), (1, 1)]).2[i]? =
        some (oneHotRowOf (surfaceCategories [(0, 0), (1, 1)]) none) ∧
        (oneHotRowOf (surfaceCategories [(0, 0), (1, 1)]) none).count 1 = 0)) :=
  claim_C8_amended [some 0, none] [(0, 0), (1, 1)]
